import Mathlib

/-!
Verification development for the Open-Skills-Manager VS Code extension.

Shallow embedding of the extension's data model and algorithms:
the match-status computation and installed-hash table (`src/types.ts`,
`SkillsProvider`), the mtime-keyed fingerprint cache
(`src/utils/skillCompare.ts`), the single-flight index rebuild guard,
the bounded-concurrency mapper, list reordering, preset-repository
merging (`configManager.ts`), the repository cache-path encoding
(`services/git.ts`), the local skill-group enumerator, and bulk
checkbox selection.

Filesystem access is modelled by explicit function-valued states
(existence, stat, read, readdir); fallible Node.js calls are modelled
with `Except`/`Option` results so that thrown exceptions and their
`try`/`catch` handlers are explicit. JavaScript `Map` objects are
modelled as association lists preserving insertion order, matching
`Map`'s iteration-order semantics.
-/

namespace OpenSkills

/-- Association-list lookup, modelling JavaScript `Map.get` (first — and by
the `assocSet` discipline only — binding for a key wins). -/
def assocLookup {β : Type} : List (String × β) → String → Option β
  | [], _ => none
  | (k', v) :: t, k => if k' = k then some v else assocLookup t k

/-- Association-list update, modelling JavaScript `Map.set`: replaces the
binding in place if the key is present, otherwise appends at the end
(preserving `Map` insertion order). -/
def assocSet {β : Type} : List (String × β) → String → β → List (String × β)
  | [], k, v => [(k, v)]
  | (k', v') :: t, k, v =>
      if k' = k then (k, v) :: t else (k', v') :: assocSet t k v

/-- Model of Node's `path.join` for the two-argument POSIX case used in the
source (joining a directory with a relative child name). -/
def pathJoin (a b : String) : String := a ++ "/" ++ b

/-- JavaScript `String.prototype.startsWith`, on the character sequence. -/
def jsStartsWith (s p : String) : Bool := decide (p.data <+: s.data)

/-- JavaScript `String.prototype.toLowerCase`, on the character sequence. -/
def strToLower (s : String) : String := String.mk (s.data.map Char.toLower)

/-- `SkillMatchStatus` from `src/types.ts`: match status between an
installed skill and a repository skill. -/
inductive SkillMatchStatus where
  | NotInstalled
  | Matched
  | Conflict
  deriving DecidableEq, Repr

/-- The `Skill` record from `src/types.ts` (fields relevant to match-status
and selection; optional fields are `Option`-valued as in TypeScript). -/
structure Skill where
  name : String
  description : String
  path : String
  repoUrl : String
  localPath : Option String := none
  installed : Option Bool := none
  matchStatus : Option SkillMatchStatus := none
  deriving DecidableEq, Repr

/-- `SkillsProvider.getSkillKey` from `src/types.ts`. -/
def getSkillKey (skill : Skill) : String := skill.repoUrl ++ "::" ++ skill.name

/-- `SkillsProvider.getSkillMatchStatus` from `src/types.ts` (lines 362-375).
`installedSkillHashes` models the `Map<string, string>` field;
`fsExistsSync` models `fs.existsSync`; `skillHash` models the ambient
`getCachedSkillHash` call (a function of the current filesystem and hash
cache, both fixed during one evaluation). The JavaScript guard
`if (!installedHash)` is truthiness: it fires both when the map has no
entry and when the stored hash is the empty string. -/
def getSkillMatchStatus (installedSkillHashes : List (String × String))
    (fsExistsSync : String → Bool) (skillHash : String → String)
    (skill : Skill) : SkillMatchStatus :=
  match assocLookup installedSkillHashes skill.name with
  | none => .NotInstalled
  | some installedHash =>
    if installedHash = "" then .NotInstalled
    else
      match skill.localPath with
      | some lp =>
          if fsExistsSync lp then
            if installedHash = skillHash lp then .Matched else .Conflict
          else .NotInstalled
      | none => .NotInstalled

/-! ### Fingerprint cache (`src/utils/skillCompare.ts`) -/

/-- Filesystem model for the fingerprint cache: `fsExists` models
`fs.existsSync` (total, never throws); `stat` models `fs.statSync`
returning `mtimeMs` (here an abstract `Nat` tick) or throwing; `read`
models `fs.readFileSync` returning the file's bytes or throwing. -/
structure HashFs where
  fsExists : String → Bool
  stat : String → Except Unit Nat
  read : String → Except Unit (List Nat)

/-- `computeSkillHash` from `src/utils/skillCompare.ts`: hash of the
`SKILL.md` file in the directory, empty when the marker is absent.
`hashFn` abstracts the md5-hex digest of `computeFileHash` (an opaque
collision-resistant function of the raw bytes). A thrown `readFileSync`
error propagates (`Except.error`), as in the source, where the caller's
`try` block catches it. -/
def computeSkillHash (fs : HashFs) (hashFn : List Nat → String)
    (dirPath : String) : Except Unit String :=
  let skillMdPath := pathJoin dirPath "SKILL.md"
  if fs.fsExists skillMdPath then (fs.read skillMdPath).map hashFn
  else .ok ""

/-- One fingerprint-cache entry: `{ hash, mtime }`. -/
abbrev HashCache := List (String × (String × Nat))

/-- `getCachedSkillHash` from `src/utils/skillCompare.ts` (lines 50-71).
Returns the hash together with the updated cache (the source mutates the
module-level `hashCache` map). The `try { ... } catch { return ''; }`
block covers `statSync` and the recomputation; on any error the function
returns the empty string and leaves the cache untouched. -/
def getCachedSkillHash (fs : HashFs) (hashFn : List Nat → String)
    (cache : HashCache) (dirPath : String) : String × HashCache :=
  let skillMdPath := pathJoin dirPath "SKILL.md"
  if fs.fsExists skillMdPath = false then ("", cache)
  else
    match fs.stat skillMdPath with
    | .error _ => ("", cache)
    | .ok mtime =>
      match assocLookup cache dirPath with
      | some (h, m) =>
        if m = mtime then (h, cache)
        else
          match computeSkillHash fs hashFn dirPath with
          | .error _ => ("", cache)
          | .ok hash => (hash, assocSet cache dirPath (hash, mtime))
      | none =>
        match computeSkillHash fs hashFn dirPath with
        | .error _ => ("", cache)
        | .ok hash => (hash, assocSet cache dirPath (hash, mtime))

/-- `clearHashCache` from `src/utils/skillCompare.ts`. -/
def clearHashCache : HashCache := []

/-! ### Single-flight index rebuild (`src/types.ts`, `buildIndex`/`refresh`)

JavaScript's run-to-completion semantics makes the check-and-set of
`this.indexingPromise` in `buildIndex` atomic (no await separates the
check from the assignment), so each call is one atomic step on the
guard state. `rebuildsStarted` counts invocations of `doBuildIndex`
(observational, not part of the class state); `nextId` allocates fresh
promise identities. -/

structure IndexGuardState where
  indexingPromise : Option Nat
  rebuildsStarted : Nat
  nextId : Nat
  deriving DecidableEq, Repr

/-- `SkillsProvider.buildIndex` (lines 631-637): if a rebuild is in flight
return (join) its promise unchanged; otherwise start `doBuildIndex` and
record its promise in the guard slot. Returns the promise the caller
awaits. -/
def buildIndex (s : IndexGuardState) : Nat × IndexGuardState :=
  match s.indexingPromise with
  | some p => (p, s)
  | none =>
      (s.nextId,
        { indexingPromise := some s.nextId
          rebuildsStarted := s.rebuildsStarted + 1
          nextId := s.nextId + 1 })

/-- The `.finally(() => { this.indexingPromise = undefined; })` handler
that runs when a rebuild settles. -/
def completeRebuild (s : IndexGuardState) : IndexGuardState :=
  { s with indexingPromise := none }

/-- The rebuild-triggering step of `SkillsProvider.refresh` (line 114,
`void this.buildIndex()`); the hash-cache clearing and event firing in
`refresh` do not touch the guard state. -/
def refresh (s : IndexGuardState) : Nat × IndexGuardState := buildIndex s

/-! ### Bounded-concurrency mapper (`src/types.ts`, `mapWithConcurrency`)

Small-step model of the worker pool. WorkerPhase: a worker is `ready`
(about to execute `const current = nextIndex++`), `running cur` (has
claimed index `cur` and is awaiting `mapper(items[cur])`), or `done`
(returned after claiming an index past the end). Between awaits,
JavaScript code runs atomically, so claiming (post-increment plus bounds
check) is one step and the write `results[current] = ...` on await
completion is another. A schedule is an arbitrary list of worker
indices, covering every possible completion order. -/

inductive WorkerPhase where
  | ready
  | running (cur : Nat)
  | done
  deriving DecidableEq, Repr

structure MapRunState (R : Type) where
  nextIndex : Nat
  results : List (Option R)
  workers : List WorkerPhase
  deriving Repr

/-- Initial state of `mapWithConcurrency` after line 888: `results` is
`new Array(items.length)` (all holes), and `min(concurrency,
items.length)` workers are started. -/
def initMapRun {α : Type} (R : Type) (items : List α) (concurrency : Nat) :
    MapRunState R :=
  { nextIndex := 0
    results := List.replicate items.length none
    workers := List.replicate (min concurrency items.length) .ready }

/-- One scheduler step: worker `i` performs its next atomic action. A
`ready` worker claims `nextIndex` (post-increment) and either retires
(claim past the end) or starts running the claimed item; a `running`
worker completes its awaited `mapper` call and writes the result into
its slot; a `done` or nonexistent worker does nothing. -/
def stepMapRun {α R : Type} (f : α → R) (items : List α)
    (s : MapRunState R) (i : Nat) : MapRunState R :=
  match s.workers[i]? with
  | some .ready =>
      let cur := s.nextIndex
      if items.length ≤ cur then
        { s with nextIndex := cur + 1, workers := s.workers.set i .done }
      else
        { s with nextIndex := cur + 1, workers := s.workers.set i (.running cur) }
  | some (.running cur) =>
      match items[cur]? with
      | some a =>
          { s with results := s.results.set cur (some (f a)),
                   workers := s.workers.set i .ready }
      | none => { s with workers := s.workers.set i .ready }
  | some .done => s
  | none => s

/-- Run `mapWithConcurrency`'s worker pool under a given schedule. -/
def runMapRun {α R : Type} (f : α → R) (items : List α) (concurrency : Nat)
    (sched : List Nat) : MapRunState R :=
  sched.foldl (stepMapRun f items) (initMapRun R items concurrency)

/-- `Promise.all(workers)` has settled: every worker has returned. -/
def allWorkersDone {R : Type} (s : MapRunState R) : Bool :=
  s.workers.all fun w => match w with | .done => true | _ => false

/-! ### Reordering (`src/types.ts`, `reorderKey`/`moveKey`) -/

/-- JavaScript `Array.prototype.indexOf` on string arrays, as an
`Option Nat` (the source compares the result against `-1`). -/
def indexOfKey : List String → String → Option Nat
  | [], _ => none
  | x :: xs, k => if x = k then some 0 else (indexOfKey xs k).map (· + 1)

/-- JavaScript `arr.splice(i, 0, a)`: insert `a` at position `i`. -/
def spliceInsert (l : List String) (i : Nat) (a : String) : List String :=
  l.take i ++ a :: l.drop i

/-- `SkillsProvider.reorderKey` from `src/types.ts` (lines 255-269).
`targetKey` is optional (`targetKey?: string`); the strict-equality
guard `draggedKey === targetKey` holds only when the target is present
and equal. -/
def reorderKey (order : List String) (draggedKey : String)
    (targetKey : Option String) : List String :=
  if targetKey = some draggedKey then order
  else
    let next := order.filter (fun k => k != draggedKey)
    match targetKey with
    | none => next ++ [draggedKey]
    | some t =>
      match indexOfKey next t with
      | none => next ++ [draggedKey]
      | some i => spliceInsert next i draggedKey

/-- The body of `SkillsProvider.moveKey` once `currentIndex` is known:
bounds-check `targetIndex`, then `splice(currentIndex, 1)` followed by
`splice(targetIndex, 0, key)`. -/
def moveKeyAt (next : List String) (key : String) (delta : Int)
    (currentIndex : Nat) : List String :=
  let targetIndex : Int := (currentIndex : Int) + delta
  if targetIndex < 0 ∨ (next.length : Int) ≤ targetIndex then next
  else spliceInsert (next.eraseIdx currentIndex) targetIndex.toNat key

/-- `SkillsProvider.moveKey` from `src/types.ts` (lines 309-321). When the
key is absent the source pushes it and recurses once; that single
recursion is unrolled here (after the push the key is present, so the
inner `none` branch is unreachable). -/
def moveKey (order : List String) (key : String) (delta : Int) : List String :=
  match indexOfKey order key with
  | some i => moveKeyAt order key delta i
  | none =>
      let next := order ++ [key]
      match indexOfKey next key with
      | some i => moveKeyAt next key delta i
      | none => next

/-! ### Preset repositories (`src/configManager.ts`) -/

/-- `SkillRepo` from `src/types.ts`: a configured repository record. -/
structure SkillRepo where
  url : String
  name : String
  branch : Option String := none
  isPreset : Option Bool := none
  deriving DecidableEq, Repr

/-- `PRESET_REPOS` from `src/configManager.ts`: the fixed built-in
repository records, in their source order. -/
def PRESET_REPOS : List SkillRepo :=
  [ { url := "https://github.com/anthropics/skills.git",
      name := "anthropics/skills", isPreset := some true },
    { url := "https://github.com/openai/skills.git",
      name := "openai/skills", isPreset := some true },
    { url := "https://github.com/ComposioHQ/awesome-claude-skills.git",
      name := "claude/skills", isPreset := some true },
    { url := "https://github.com/vercel-labs/agent-skills.git",
      name := "vercel/skills", isPreset := some true },
    { url := "https://github.com/skillcreatorai/Ai-Agent-Skills.git",
      name := "creatorai/skills", isPreset := some true },
    { url := "https://github.com/obra/superpowers.git",
      name := "superpowers/skills", isPreset := some true },
    { url := "https://github.com/zxkane/aws-skills.git",
      name := "aws/skills", isPreset := some true },
    { url := "https://github.com/huggingface/skills.git",
      name := "huggingface/skills", isPreset := some true },
    { url := "https://github.com/ameyalambat128/swiftui-skills.git",
      name := "swiftui/skills", isPreset := some true } ]

/-- `ConfigManager.getRepos`: merge preset repos with the stored user
configuration, presets first, dropping user entries whose URL duplicates
a preset URL. `stored` models `config.get('repositories')`. -/
def getRepos (stored : List SkillRepo) : List SkillRepo :=
  PRESET_REPOS ++ stored.filter fun r => !(PRESET_REPOS.any fun p => p.url == r.url)

/-- `ConfigManager.removeRepo`: filters the *merged* list (`getRepos()`)
by URL and writes the result back as the stored configuration; returns
the new stored configuration. -/
def removeRepo (url : String) (stored : List SkillRepo) : List SkillRepo :=
  (getRepos stored).filter fun r => r.url != url

/-! ### Repository cache path (`src/services/git.ts`) -/

/-- The standard base64 alphabet. -/
def base64Alphabet : List Char :=
  "ABCDEFGHIJKLMNOPQRSTUVWXYZabcdefghijklmnopqrstuvwxyz0123456789+/".data

/-- Character of the base64 alphabet at a 6-bit index. -/
def base64Char (n : Nat) : Char := base64Alphabet.getD n 'A'

/-- Standard base64 encoding of a byte sequence (with `=` padding),
modelling `Buffer.prototype.toString('base64')`. -/
def base64Encode : List Nat → List Char
  | [] => []
  | [a] =>
      [base64Char (a / 4), base64Char (a % 4 * 16), '=', '=']
  | [a, b] =>
      [base64Char (a / 4), base64Char (a % 4 * 16 + b / 16),
       base64Char (b % 16 * 4), '=']
  | a :: b :: c :: rest =>
      base64Char (a / 4) :: base64Char (a % 4 * 16 + b / 16) ::
      base64Char (b % 16 * 4 + c / 64) :: base64Char (c % 64) ::
      base64Encode rest

/-- UTF-8 encoding of one Unicode code point, as bytes. -/
def utf8EncodeCodepoint (c : Nat) : List Nat :=
  if c < 128 then [c]
  else if c < 2048 then [192 + c / 64, 128 + c % 64]
  else if c < 65536 then [224 + c / 4096, 128 + c / 64 % 64, 128 + c % 64]
  else [240 + c / 262144, 128 + c / 4096 % 64, 128 + c / 64 % 64, 128 + c % 64]

/-- UTF-8 bytes of a string, modelling `Buffer.from(url)`. -/
def utf8Bytes (s : String) : List Nat :=
  (s.data.map fun c => utf8EncodeCodepoint c.toNat).flatten

/-- `CACHE_DIR` from `src/services/git.ts`: `os.tmpdir()` (modelled as
`/tmp`) joined with the fixed subdirectory name. -/
def CACHE_DIR : String := pathJoin "/tmp" "agentskills-git-cache"

/-- The directory-name encoding inside `getRepoCachePath`:
`Buffer.from(url).toString('base64').replace(/[^a-zA-Z0-9]/g, '')`. -/
def repoCacheDirName (url : String) : String :=
  String.mk ((base64Encode (utf8Bytes url)).filter fun c => c.isAlpha || c.isDigit)

/-- `getRepoCachePath` from `src/services/git.ts` (lines 56-59). -/
def getRepoCachePath (url : String) : String :=
  pathJoin CACHE_DIR (repoCacheDirName url)

/-! ### Local skills groups (`src/types.ts`, `getLocalSkillsGroups`) -/

/-- A candidate directory from `getSkillDirectories` (`src/utils/skills.ts`). -/
structure SkillDirectory where
  path : String
  displayName : String
  icon : String
  deriving DecidableEq, Repr

/-- `LocalSkillsGroup` from `src/types.ts` (the `exists` field is named
`dirExists` here; `exists` is a Lean keyword). -/
structure LocalSkillsGroup where
  name : String
  path : String
  icon : String
  dirExists : Bool
  isActive : Bool
  deriving DecidableEq, Repr

/-- One entry returned by `fs.readdirSync(dir, { withFileTypes: true })`. -/
structure DirEntry where
  name : String
  isDirectory : Bool
  deriving DecidableEq, Repr

/-- Filesystem model for the enumerator: existence probe plus directory
listing, where `none` models `readdirSync` throwing (caught by the
source's `try`/`catch`, which then drops the group). -/
structure LocalFs where
  fsExists : String → Bool
  readdir : String → Option (List DirEntry)

/-- The `.map` step of `getLocalSkillsGroups` (lines 384-393): build a
group record for a candidate directory. -/
def mkLocalGroup (fs : LocalFs) (activePath : String) (dir : SkillDirectory) :
    LocalSkillsGroup :=
  { name := dir.displayName
    path := dir.path
    icon := dir.icon
    dirExists := fs.fsExists dir.path
    isActive := dir.path = activePath }

/-- The `.filter` predicate of `getLocalSkillsGroups` (lines 394-407):
keep a group iff it is active, or it exists and its listing has at least
one non-dot subdirectory containing `SKILL.md`; a listing failure drops
the group. -/
def localGroupKept (fs : LocalFs) (g : LocalSkillsGroup) : Bool :=
  if g.isActive then true
  else if !g.dirExists then false
  else
    match fs.readdir g.path with
    | none => false
    | some entries =>
        entries.any fun e =>
          e.isDirectory && !(jsStartsWith e.name ".") &&
          fs.fsExists (pathJoin (pathJoin g.path e.name) "SKILL.md")

/-- `SkillsProvider.getLocalSkillsGroups` from `src/types.ts` (lines
377-408), for a given candidate list and active skills path. -/
def getLocalSkillsGroups (fs : LocalFs) (activePath : String)
    (dirs : List SkillDirectory) : List LocalSkillsGroup :=
  (dirs.map (mkLocalGroup fs activePath)).filter (localGroupKept fs)

/-! ### Bulk selection (`src/types.ts`, `checkAllMatchingRepoSkills` /
`checkAllSkillsInRepo`) -/

/-- The `SkillsProvider` state touched by bulk selection: the checked-key
set (insertion-ordered, as a JavaScript `Set`), the key→skill cache, the
per-repository index, the installed-hash table, and the search query. -/
structure ProviderState where
  checkedSkills : List String
  skillCache : List (String × Skill)
  repoSkillsIndex : List (String × List Skill)
  installedSkillHashes : List (String × String)
  searchQuery : String
  deriving DecidableEq, Repr

/-- `SkillsProvider.setChecked` (lines 125-133). `Set.add` is a no-op on
a present element. -/
def setChecked (st : ProviderState) (skill : Skill) (checked : Bool) :
    ProviderState :=
  let key := getSkillKey skill
  if checked then
    { st with
      checkedSkills :=
        if key ∈ st.checkedSkills then st.checkedSkills
        else st.checkedSkills ++ [key]
      skillCache := assocSet st.skillCache key skill }
  else
    { st with checkedSkills := st.checkedSkills.filter (· != key) }

/-- Substring test, modelling JavaScript `String.prototype.includes`. -/
def strIncludes (s q : String) : Bool := decide (q.data <:+: s.data)

/-- `SkillsProvider.filterSkills` (lines 686-694), restricted to repo
skills (the generic version also accepts local skills). -/
def filterSkills (searchQuery : String) (skills : List Skill) : List Skill :=
  if searchQuery = "" then skills
  else
    let q := strToLower searchQuery
    skills.filter fun s =>
      strIncludes (strToLower s.name) q ||
      strIncludes (strToLower s.description) q

/-- The status a skill is treated as having where the source falls back
from the stored annotation to a fresh computation:
`skill.matchStatus ?? this.getSkillMatchStatus(skill)`. -/
def effectiveMatchStatus (installedSkillHashes : List (String × String))
    (fsExistsSync : String → Bool) (skillHash : String → String)
    (s : Skill) : SkillMatchStatus :=
  s.matchStatus.getD (getSkillMatchStatus installedSkillHashes fsExistsSync skillHash s)

/-- `SkillsProvider.getAllMatchingRepoSkills` (lines 893-899). -/
def getAllMatchingRepoSkills (st : ProviderState) : List Skill :=
  (st.repoSkillsIndex.map fun kv => filterSkills st.searchQuery kv.2).flatten

/-- `SkillsProvider.checkAllMatchingRepoSkills` (lines 161-168): check
every search-matching indexed skill, skipping those whose stored
`matchStatus` annotation is `Conflict`. -/
def checkAllMatchingRepoSkills (st : ProviderState) : ProviderState :=
  (getAllMatchingRepoSkills st).foldl
    (fun acc skill =>
      if skill.matchStatus = some .Conflict then acc
      else setChecked acc skill true) st

/-- `SkillsProvider.checkAllSkillsInRepo` (lines 170-178): check every
(search-matching) skill of one repository, skipping those whose
effective status — stored annotation, else freshly computed — is
`Conflict`. -/
def checkAllSkillsInRepo (fsExistsSync : String → Bool)
    (skillHash : String → String) (st : ProviderState) (repoUrl : String) :
    ProviderState :=
  let skills := (assocLookup st.repoSkillsIndex repoUrl).getD []
  let candidates :=
    if st.searchQuery ≠ "" then filterSkills st.searchQuery skills else skills
  candidates.foldl
    (fun acc skill =>
      if effectiveMatchStatus st.installedSkillHashes fsExistsSync skillHash skill
          = .Conflict then acc
      else setChecked acc skill true) st

/-- Slot `j` of the result array holds the mapped value for `items[j]`. -/
def writtenAt {α R : Type} (f : α → R) (items : List α) (s : MapRunState R)
    (j : Nat) : Prop :=
  s.results[j]? = some ((items[j]?).map f)

/-- Inductive invariant of the `mapWithConcurrency` worker pool: the
result array keeps its length; the worker list keeps its size; every
claimed index below the cursor is either already written with the
correct value or currently held by some running worker; every running
worker holds an in-range, already-claimed index; and once any worker has
retired the cursor has passed the end of the input. -/
structure MapInv {α R : Type} (f : α → R) (items : List α) (conc : Nat)
    (s : MapRunState R) : Prop where
  resLen : s.results.length = items.length
  wkLen : s.workers.length = min conc items.length
  claimed : ∀ j : Nat, j < s.nextIndex → j < items.length →
    writtenAt f items s j ∨
      ∃ i : Nat, s.workers[i]? = some (WorkerPhase.running j)
  runBound : ∀ i cur : Nat, s.workers[i]? = some (WorkerPhase.running cur) →
    cur < items.length ∧ cur < s.nextIndex
  doneHigh : ∀ i : Nat, s.workers[i]? = some WorkerPhase.done →
    items.length ≤ s.nextIndex

end OpenSkills

namespace OpenSkills

/-! ## Claim C1 — match-status computation -/

/-- The claimed iff fails on the code: with an installed entry present
(fingerprint `"h1"`) but the skill's locally-cloned copy no longer on
disk (e.g. the temp cache was wiped), `getSkillMatchStatus` returns
`NotInstalled` even though an entry exists whose fingerprint differs
from the skill's own (empty) fingerprint — the claim demands `Conflict`
and forbids `NotInstalled` whenever an entry exists. -/
theorem c1_match_status_counterexample :
    getSkillMatchStatus [("a", "h1")] (fun _ => false) (fun _ => "")
      { name := "a", description := "", path := "p", repoUrl := "u",
        localPath := some "lp" }
      = .NotInstalled ∧
    assocLookup [("a", "h1")] "a" = some "h1" ∧
    ("h1" : String) ≠ "" := by
  refine ⟨rfl, rfl, by decide⟩

/-- C1 (amended): the status is `NotInstalled` iff the installed table
has no entry for the skill's name, or the entry is the empty
fingerprint, or the skill has no existing locally-cloned copy; `Matched`
iff a non-empty entry exists, the local copy exists, and the
fingerprints are equal; `Conflict` iff a non-empty entry exists, the
local copy exists, and the fingerprints differ. -/
theorem c1_match_status_amended (hashes : List (String × String))
    (fsE : String → Bool) (hash : String → String) (skill : Skill) :
    (getSkillMatchStatus hashes fsE hash skill = .NotInstalled ↔
      (assocLookup hashes skill.name = none ∨
       assocLookup hashes skill.name = some "" ∨
       ∀ lp, skill.localPath = some lp → fsE lp = false)) ∧
    (getSkillMatchStatus hashes fsE hash skill = .Matched ↔
      ∃ h lp, assocLookup hashes skill.name = some h ∧ h ≠ "" ∧
        skill.localPath = some lp ∧ fsE lp = true ∧ h = hash lp) ∧
    (getSkillMatchStatus hashes fsE hash skill = .Conflict ↔
      ∃ h lp, assocLookup hashes skill.name = some h ∧ h ≠ "" ∧
        skill.localPath = some lp ∧ fsE lp = true ∧ h ≠ hash lp) := by
  unfold getSkillMatchStatus
  rcases hL : assocLookup hashes skill.name with _ | h
  · simp
  · rcases hP : skill.localPath with _ | lp
    · by_cases hE : h = "" <;> simp [hE, hP]
    · by_cases hE : h = ""
      · simp [hE, hP]
      · rcases hFs : fsE lp with _ | _
        · simp [hE, hP, hFs]
        · by_cases hH : h = hash lp
          · subst hH
            simp [hE, hP, hFs]
          · simp [hE, hP, hFs, hH]

/-- Witness for C1 (amended) at a concrete conflicting state. -/
theorem c1_match_status_amended_witness :
    getSkillMatchStatus [("a", "h1")] (fun _ => true) (fun _ => "h2")
      { name := "a", description := "", path := "p", repoUrl := "u",
        localPath := some "lp" } = .Conflict :=
  ((c1_match_status_amended [("a", "h1")] (fun _ => true) (fun _ => "h2")
      { name := "a", description := "", path := "p", repoUrl := "u",
        localPath := some "lp" }).2.2).mpr
    ⟨"h1", "lp", rfl, by decide, rfl, rfl, by decide⟩

/-! ## Claim C2 — mtime-keyed fingerprint cache -/

/-- C2: when the marker file exists and its stat succeeds, a cache entry
with the current modification time is returned as-is without touching
the cache (in particular the result is the cached digest, independent of
the file's current bytes); on a missing or stale entry the digest is
recomputed from the file's bytes and stored with the current
modification time; and when the marker file does not exist, the empty
digest is returned. -/
theorem c2_cached_hash (fs : HashFs) (hashFn : List Nat → String)
    (cache : HashCache) (dirPath : String) :
    (∀ mtime h,
      fs.fsExists (pathJoin dirPath "SKILL.md") = true →
      fs.stat (pathJoin dirPath "SKILL.md") = .ok mtime →
      assocLookup cache dirPath = some (h, mtime) →
      getCachedSkillHash fs hashFn cache dirPath = (h, cache)) ∧
    (∀ mtime bytes,
      fs.fsExists (pathJoin dirPath "SKILL.md") = true →
      fs.stat (pathJoin dirPath "SKILL.md") = .ok mtime →
      fs.read (pathJoin dirPath "SKILL.md") = .ok bytes →
      (assocLookup cache dirPath = none ∨
        ∃ h m, assocLookup cache dirPath = some (h, m) ∧ m ≠ mtime) →
      getCachedSkillHash fs hashFn cache dirPath =
        (hashFn bytes, assocSet cache dirPath (hashFn bytes, mtime))) ∧
    (fs.fsExists (pathJoin dirPath "SKILL.md") = false →
      getCachedSkillHash fs hashFn cache dirPath = ("", cache)) := by
  refine ⟨?_, ?_, ?_⟩
  · intro mtime h hex hstat hcache
    simp [getCachedSkillHash, hex, hstat, hcache]
  · intro mtime bytes hex hstat hread hmiss
    rcases hmiss with hmiss | ⟨h, m, hcache, hne⟩
    · simp [getCachedSkillHash, computeSkillHash, hex, hstat, hmiss, hread,
        Except.map]
    · simp [getCachedSkillHash, computeSkillHash, hex, hstat, hcache, hne,
        hread, Except.map]
  · intro hex
    simp [getCachedSkillHash, hex]

/-- Witness for C2 at a concrete filesystem: stale cache entry (mtime 3
versus current mtime 7) forces recomputation and storage. -/
theorem c2_cached_hash_witness :
    getCachedSkillHash
      ⟨fun p => p == "d/SKILL.md", fun _ => .ok 7, fun _ => .ok [1, 2, 3]⟩
      (fun bs => Nat.repr bs.length) [("d", ("old", 3))] "d"
      = ("3", [("d", ("3", 7))]) :=
  (c2_cached_hash
      ⟨fun p => p == "d/SKILL.md", fun _ => .ok 7, fun _ => .ok [1, 2, 3]⟩
      (fun bs => Nat.repr bs.length) [("d", ("old", 3))] "d").2.1
    7 [1, 2, 3] (by decide) rfl rfl (.inr ⟨"old", 3, rfl, by decide⟩)

/-! ## Claim C9 — hash lookup is total and error-absorbing -/

/-- C9: `getCachedSkillHash` is total (its model returns a plain string,
with every fallible filesystem primitive's exception explicit and
caught): it returns the empty digest when the marker file does not
exist, when `statSync` throws, and when the bytes must be re-read and
`readFileSync` throws — in every case without corrupting the cache. -/
theorem c9_cached_hash_total (fs : HashFs) (hashFn : List Nat → String)
    (cache : HashCache) (dirPath : String) :
    (fs.fsExists (pathJoin dirPath "SKILL.md") = false →
      getCachedSkillHash fs hashFn cache dirPath = ("", cache)) ∧
    (fs.stat (pathJoin dirPath "SKILL.md") = .error () →
      getCachedSkillHash fs hashFn cache dirPath = ("", cache)) ∧
    (∀ mtime,
      fs.fsExists (pathJoin dirPath "SKILL.md") = true →
      fs.stat (pathJoin dirPath "SKILL.md") = .ok mtime →
      fs.read (pathJoin dirPath "SKILL.md") = .error () →
      (∀ h m, assocLookup cache dirPath = some (h, m) → m ≠ mtime) →
      getCachedSkillHash fs hashFn cache dirPath = ("", cache)) := by
  refine ⟨?_, ?_, ?_⟩
  · intro hex
    simp [getCachedSkillHash, hex]
  · intro hstat
    by_cases hex : fs.fsExists (pathJoin dirPath "SKILL.md") = false
    · simp [getCachedSkillHash, hex]
    · simp only [Bool.not_eq_false] at hex
      simp [getCachedSkillHash, hex, hstat]
  · intro mtime hex hstat hread hstale
    rcases hcache : assocLookup cache dirPath with _ | ⟨h, m⟩
    · simp [getCachedSkillHash, computeSkillHash, hex, hstat, hcache, hread,
        Except.map]
    · have hne : m ≠ mtime := hstale h m hcache
      simp [getCachedSkillHash, computeSkillHash, hex, hstat, hcache, hne,
        hread, Except.map]

/-- Witness for C9 at a concrete filesystem whose `statSync` throws. -/
theorem c9_cached_hash_total_witness :
    getCachedSkillHash
      ⟨fun p => p == "d/SKILL.md", fun _ => .error (), fun _ => .error ()⟩
      (fun _ => "H") [] "d" = ("", []) :=
  (c9_cached_hash_total
      ⟨fun p => p == "d/SKILL.md", fun _ => .error (), fun _ => .error ()⟩
      (fun _ => "H") [] "d").2.1 rfl

/-! ## Claim C3 — single-flight index rebuild -/

/-- C3: the rebuild is single-flight. A `buildIndex` call while a rebuild
is in flight returns exactly the in-flight promise and leaves the state
unchanged (no new rebuild starts); two `refresh` calls in quick
succession (no completion between them) from an idle state execute
exactly one rebuild, the second joining the first's promise; and no
single call ever starts more than one rebuild. -/
theorem c3_single_flight :
    (∀ s p, s.indexingPromise = some p → buildIndex s = (p, s)) ∧
    (∀ s, s.indexingPromise = none →
      (refresh (refresh s).2).2.rebuildsStarted = s.rebuildsStarted + 1 ∧
      (refresh (refresh s).2).1 = (refresh s).1) ∧
    (∀ s, (buildIndex s).2.rebuildsStarted ≤ s.rebuildsStarted + 1) := by
  refine ⟨?_, ?_, ?_⟩
  · intro s p hp
    simp [buildIndex, hp]
  · intro s hs
    simp [refresh, buildIndex, hs]
  · intro s
    rcases hp : s.indexingPromise with _ | p <;> simp [buildIndex, hp]

/-- Witness for C3: joining a concrete in-flight rebuild, and a concrete
idle double-refresh executing one rebuild. -/
theorem c3_single_flight_witness :
    buildIndex ⟨some 5, 3, 7⟩ = (5, ⟨some 5, 3, 7⟩) ∧
    (refresh (refresh ⟨none, 0, 0⟩).2).2.rebuildsStarted = 1 :=
  ⟨c3_single_flight.1 ⟨some 5, 3, 7⟩ 5 rfl,
    (c3_single_flight.2.1 ⟨none, 0, 0⟩ rfl).1⟩

/-! ## Claim C7 — repository cache-path encoding -/

/-- The encoding is not injective: these two distinct repository URLs
receive the same cache subdirectory (stripping the non-alphanumeric
base64 characters erases the difference). -/
theorem c7_cache_path_counterexample :
    getRepoCachePath "https://github.com/abcd"
      = getRepoCachePath "https://github.com/abcd?" ∧
    ("https://github.com/abcd" : String) ≠ "https://github.com/abcd?" := by
  refine ⟨by decide, by decide⟩

/-- C7 (amended): the cache-path encoding is deterministic (a pure
function of the URL) and filesystem-safe — every URL maps to a purely
alphanumeric subdirectory name directly under the fixed cache root —
but it is not injective: distinct URLs may share a subdirectory. -/
theorem c7_cache_path_amended (url : String) :
    getRepoCachePath url = pathJoin CACHE_DIR (repoCacheDirName url) ∧
    (repoCacheDirName url).data.all (fun c => c.isAlpha || c.isDigit)
      = true := by
  refine ⟨rfl, ?_⟩
  rw [List.all_eq_true]
  intro c hc
  have : c ∈ (base64Encode (utf8Bytes url)).filter
      (fun c => c.isAlpha || c.isDigit) := hc
  exact (List.mem_filter.mp this).2

/-! ## Claim C6 — preset repositories -/

/-- The at-most-once part of the claim fails on the code: a stored user
configuration that itself contains the same non-preset URL twice yields
a `getRepos()` result in which that URL appears twice (only duplication
against preset URLs is filtered). -/
theorem c6_presets_counterexample :
    ¬ ((getRepos
        [{ url := "https://example.com/dup.git", name := "dup" },
         { url := "https://example.com/dup.git", name := "dup" }]).map
        SkillRepo.url).Nodup := by decide

/-- C6 (amended): `getRepos()` always starts with the full preset list in
its fixed order (hence every preset repository appears); each URL
appears at most once *provided* the stored configuration's URLs are
themselves pairwise distinct (user entries duplicating a preset URL are
dropped); and `removeRepo` applied to any URL — in particular a preset
URL — never makes a preset absent from a subsequent `getRepos()`. -/
theorem c6_presets_amended (stored : List SkillRepo) :
    ((getRepos stored).take PRESET_REPOS.length = PRESET_REPOS) ∧
    (∀ p, p ∈ PRESET_REPOS → p ∈ getRepos stored) ∧
    ((stored.map SkillRepo.url).Nodup →
      ((getRepos stored).map SkillRepo.url).Nodup) ∧
    (∀ u p, p ∈ PRESET_REPOS → p ∈ getRepos (removeRepo u stored)) := by
  refine ⟨?_, ?_, ?_, ?_⟩
  · exact List.take_left PRESET_REPOS _
  · intro p hp
    exact List.mem_append_left _ hp
  · intro hnodup
    rw [getRepos, List.map_append, List.nodup_append]
    refine ⟨by decide, ?_, ?_⟩
    · exact List.Nodup.sublist
        ((List.filter_sublist stored).map SkillRepo.url) hnodup
    · intro a ha hb
      obtain ⟨p, hp, hpu⟩ := List.mem_map.mp ha
      obtain ⟨r, hr, hru⟩ := List.mem_map.mp hb
      have hkeep := (List.mem_filter.mp hr).2
      rw [Bool.not_eq_eq_eq_not, Bool.not_true, List.any_eq_false] at hkeep
      exact hkeep p hp (beq_iff_eq.mpr (hpu.trans hru.symm))
  · intro u p hp
    exact List.mem_append_left _ hp

/-- Witness for C6 (amended) at a concrete duplicate-free configuration:
removing the first preset's URL leaves that preset in `getRepos()`, and
the merged list is duplicate-free. -/
theorem c6_presets_amended_witness :
    ({ url := "https://github.com/anthropics/skills.git",
       name := "anthropics/skills", isPreset := some true } : SkillRepo)
      ∈ getRepos (removeRepo "https://github.com/anthropics/skills.git"
          [{ url := "https://example.com/mine.git", name := "mine" }]) ∧
    ((getRepos [{ url := "https://example.com/mine.git", name := "mine" }]).map
        SkillRepo.url).Nodup :=
  ⟨(c6_presets_amended
      (removeRepo "https://github.com/anthropics/skills.git"
        [{ url := "https://example.com/mine.git", name := "mine" }])).2.1
      _ (by decide),
   (c6_presets_amended
      [{ url := "https://example.com/mine.git", name := "mine" }]).2.2.1
      (by decide)⟩

/-! ## Claim C8 — local group enumeration -/

/-- The claimed iff fails on the code: an inactive candidate directory
that exists and whose only `SKILL.md`-holding subdirectory starts with a
dot is suppressed by the enumerator, although the claim's condition
("exists and contains at least one subdirectory holding a SKILL.md
marker file") holds. -/
theorem c8_local_groups_counterexample :
    getLocalSkillsGroups
      ⟨fun p => p == "d" || p == "d/.x/SKILL.md",
       fun p => if p == "d" then some [⟨".x", true⟩] else none⟩
      "ACTIVE" [⟨"d", "proj/d", "layers"⟩] = [] ∧
    (mkLocalGroup
      ⟨fun p => p == "d" || p == "d/.x/SKILL.md",
       fun p => if p == "d" then some [⟨".x", true⟩] else none⟩
      "ACTIVE" ⟨"d", "proj/d", "layers"⟩).isActive = false ∧
    (mkLocalGroup
      ⟨fun p => p == "d" || p == "d/.x/SKILL.md",
       fun p => if p == "d" then some [⟨".x", true⟩] else none⟩
      "ACTIVE" ⟨"d", "proj/d", "layers"⟩).dirExists = true ∧
    (LocalFs.readdir
      ⟨fun p => p == "d" || p == "d/.x/SKILL.md",
       fun p => if p == "d" then some [⟨".x", true⟩] else none⟩ "d")
      = some [⟨".x", true⟩] ∧
    (DirEntry.mk ".x" true).isDirectory = true ∧
    (LocalFs.fsExists
      ⟨fun p => p == "d" || p == "d/.x/SKILL.md",
       fun p => if p == "d" then some [⟨".x", true⟩] else none⟩
      (pathJoin (pathJoin "d" ".x") "SKILL.md")) = true := by
  refine ⟨by decide, by decide, by decide, by decide, by decide, by decide⟩

/-- Characterization of the enumerator's filter predicate. -/
theorem localGroupKept_iff (fs : LocalFs) (g : LocalSkillsGroup) :
    localGroupKept fs g = true ↔
      (g.isActive = true ∨
        (g.dirExists = true ∧
          ∃ entries, fs.readdir g.path = some entries ∧
            ∃ e, e ∈ entries ∧ e.isDirectory = true ∧
              jsStartsWith e.name "." = false ∧
              fs.fsExists (pathJoin (pathJoin g.path e.name) "SKILL.md")
                = true)) := by
  rw [localGroupKept]
  rcases hact : g.isActive with _ | _
  · rcases hex : g.dirExists with _ | _
    · simp [hact, hex]
    · rcases hrd : fs.readdir g.path with _ | entries
      · simp [hact, hex, hrd]
      · simp [hact, hex, hrd, List.any_eq_true, and_assoc]
  · simp [hact]

/-- C8 (amended): a candidate directory's group appears in the
enumerator's result iff it is the active group, or its directory exists,
its listing succeeds, and the listing contains at least one subdirectory
whose name does not start with a dot and which holds a `SKILL.md` marker
file. -/
theorem c8_local_groups_amended (fs : LocalFs) (activePath : String)
    (dirs : List SkillDirectory) (d : SkillDirectory) (hd : d ∈ dirs) :
    mkLocalGroup fs activePath d ∈ getLocalSkillsGroups fs activePath dirs ↔
      (d.path = activePath ∨
        (fs.fsExists d.path = true ∧
          ∃ entries, fs.readdir d.path = some entries ∧
            ∃ e, e ∈ entries ∧ e.isDirectory = true ∧
              jsStartsWith e.name "." = false ∧
              fs.fsExists (pathJoin (pathJoin d.path e.name) "SKILL.md")
                = true)) := by
  have hmem : mkLocalGroup fs activePath d
      ∈ dirs.map (mkLocalGroup fs activePath) :=
    List.mem_map_of_mem _ hd
  rw [getLocalSkillsGroups, List.mem_filter]
  have hiff := localGroupKept_iff fs (mkLocalGroup fs activePath d)
  have hproj : (mkLocalGroup fs activePath d).isActive
      = decide (d.path = activePath) := rfl
  have hpath : (mkLocalGroup fs activePath d).path = d.path := rfl
  have hex : (mkLocalGroup fs activePath d).dirExists
      = fs.fsExists d.path := rfl
  rw [hproj, hpath, hex, decide_eq_true_eq] at hiff
  constructor
  · rintro ⟨-, hkept⟩
    exact hiff.mp hkept
  · intro hcond
    exact ⟨hmem, hiff.mpr hcond⟩

/-- Witness for C8 (amended): the active candidate group is surfaced even
over an empty filesystem. -/
theorem c8_local_groups_amended_witness :
    mkLocalGroup ⟨fun _ => false, fun _ => none⟩ "p" ⟨"p", "p", "i"⟩
      ∈ getLocalSkillsGroups ⟨fun _ => false, fun _ => none⟩ "p"
        [⟨"p", "p", "i"⟩] :=
  (c8_local_groups_amended ⟨fun _ => false, fun _ => none⟩ "p"
      [⟨"p", "p", "i"⟩] ⟨"p", "p", "i"⟩ (by decide)).mpr (Or.inl rfl)

/-! ## Claim C5 — reorder idempotence and placement -/

/-- `indexOf` finds a position holding the sought key. -/
theorem indexOfKey_spec {l : List String} {k : String} (h : k ∈ l) :
    ∃ i, indexOfKey l k = some i ∧ l[i]? = some k := by
  induction l with
  | nil => cases h
  | cons x xs ih =>
    by_cases hx : x = k
    · exact ⟨0, by simp [indexOfKey, hx], by simp [hx]⟩
    · have hk : k ∈ xs := by
        rcases List.mem_cons.mp h with h | h
        · exact absurd h.symm hx
        · exact h
      obtain ⟨i, h1, h2⟩ := ih hk
      exact ⟨i + 1, by simp [indexOfKey, hx, h1], by simpa using h2⟩

/-- The inserted element sits at the insertion position. -/
theorem spliceInsert_getElem_self (l : List String) (i : Nat) (a : String)
    (h : i ≤ l.length) : (spliceInsert l i a)[i]? = some a := by
  rw [spliceInsert]
  have hlen : (l.take i).length = i := by
    rw [List.length_take]
    omega
  rw [List.getElem?_append_right (by omega), hlen]
  simp

/-- The element just after the insertion position is the old occupant. -/
theorem spliceInsert_getElem_succ (l : List String) (i : Nat) (a : String)
    (h : i ≤ l.length) : (spliceInsert l i a)[i + 1]? = l[i]? := by
  rw [spliceInsert]
  have hlen : (l.take i).length = i := by
    rw [List.length_take]
    omega
  rw [List.getElem?_append_right (by omega), hlen]
  have : i + 1 - i = 1 := by omega
  rw [this]
  simp

/-- C5: reordering an item onto itself returns the order unchanged; for
distinct keys `x` and `y` both present, dropping `x` onto `y` yields an
order in which `x` directly precedes `y`; moving the first item up, or
the last item down, leaves the order unchanged (position taken as the
source's own `indexOf` lookup). -/
theorem c5_reorder_props :
    (∀ order k, reorderKey order k (some k) = order) ∧
    (∀ order x y, x ∈ order → y ∈ order → x ≠ y →
      ∃ i, (reorderKey order x (some y))[i]? = some x ∧
        (reorderKey order x (some y))[i + 1]? = some y) ∧
    (∀ order k, indexOfKey order k = some 0 → moveKey order k (-1) = order) ∧
    (∀ order k, indexOfKey order k = some (order.length - 1) →
      moveKey order k 1 = order) := by
  refine ⟨?_, ?_, ?_, ?_⟩
  · intro order k
    simp [reorderKey]
  · intro order x y hx hy hxy
    have hyx : y ≠ x := fun hc => hxy hc.symm
    have hguard : ¬ ((some y : Option String) = some x) := by
      simp [hyx]
    have hyn : y ∈ order.filter (fun k => k != x) := by
      rw [List.mem_filter]
      exact ⟨hy, bne_iff_ne.mpr hyx⟩
    obtain ⟨i, hidx, hget⟩ := indexOfKey_spec hyn
    have hlt : i < (order.filter (fun k => k != x)).length := by
      by_contra hge
      rw [List.getElem?_eq_none (by omega)] at hget
      cases hget
    refine ⟨i, ?_, ?_⟩
    · rw [reorderKey, if_neg hguard]
      simp only [hidx]
      exact spliceInsert_getElem_self _ i x (by omega)
    · rw [reorderKey, if_neg hguard]
      simp only [hidx]
      rw [spliceInsert_getElem_succ _ i x (by omega)]
      exact hget
  · intro order k h
    simp only [moveKey, h, moveKeyAt]
    split
    · rfl
    · omega
  · intro order k h
    have hne : order ≠ [] := by
      rintro rfl
      cases h
    have hlen : 1 ≤ order.length := by
      cases order with
      | nil => exact absurd rfl hne
      | cons a t => simp
    simp only [moveKey, h, moveKeyAt]
    split
    · rfl
    · omega

/-- Witness for C5 at concrete orders: self-drop is the identity, a drop
of `"c"` onto `"b"` places `"c"` directly before `"b"`, and the first
item cannot move further up. -/
theorem c5_reorder_props_witness :
    reorderKey ["a", "b"] "a" (some "a") = ["a", "b"] ∧
    (∃ i, (reorderKey ["a", "b", "c"] "c" (some "b"))[i]? = some "c" ∧
      (reorderKey ["a", "b", "c"] "c" (some "b"))[i + 1]? = some "b") ∧
    indexOfKey ["a", "b"] "a" = some 0 ∧
    moveKey ["a", "b"] "a" (-1) = ["a", "b"] :=
  ⟨c5_reorder_props.1 ["a", "b"] "a",
   c5_reorder_props.2.1 ["a", "b", "c"] "c" "b" (by decide) (by decide)
     (by decide),
   by decide,
   c5_reorder_props.2.2.1 ["a", "b"] "a" (by decide)⟩

/-! ## Claim C10 — bulk selection never checks a conflicting skill -/

/-- Keys in a `setChecked`-true result either were present or are the
checked skill's key. -/
theorem mem_setChecked (st : ProviderState) (s : Skill) (k : String)
    (h : k ∈ (setChecked st s true).checkedSkills) :
    k ∈ st.checkedSkills ∨ k = getSkillKey s := by
  rw [setChecked] at h
  simp only [if_pos rfl] at h
  by_cases hmem : getSkillKey s ∈ st.checkedSkills
  · rw [if_pos hmem] at h
    exact Or.inl h
  · rw [if_neg hmem] at h
    rcases List.mem_append.mp h with h | h
    · exact Or.inl h
    · exact Or.inr (List.mem_singleton.mp h)

/-- Keys added by a guarded check-all fold come from listed skills that
pass the guard. -/
theorem mem_checkAll_foldl (cond : Skill → Prop) [DecidablePred cond]
    (l : List Skill) (st : ProviderState) (k : String)
    (h : k ∈ (l.foldl
      (fun acc s => if cond s then acc else setChecked acc s true)
      st).checkedSkills) :
    k ∈ st.checkedSkills ∨ ∃ s, s ∈ l ∧ ¬ cond s ∧ getSkillKey s = k := by
  induction l generalizing st with
  | nil => exact Or.inl h
  | cons s t ih =>
    rw [List.foldl_cons] at h
    rcases ih _ h with hin | ⟨s', hs', hc', hk'⟩
    · by_cases hc : cond s
      · rw [if_pos hc] at hin
        exact Or.inl hin
      · rw [if_neg hc] at hin
        rcases mem_setChecked st s k hin with hin | hkey
        · exact Or.inl hin
        · exact Or.inr ⟨s, List.mem_cons_self s t, hc, hkey.symm⟩
    · exact Or.inr ⟨s', List.mem_cons_of_mem s hs', hc', hk'⟩

/-- C10: neither bulk-selection operation ever adds the identifier of a
conflicting skill. Every key newly present after
`checkAllMatchingRepoSkills` is the key of a candidate skill whose
stored `matchStatus` annotation is not `Conflict`; every key newly
present after `checkAllSkillsInRepo` is the key of a skill of that
repository whose effective status (stored annotation, else freshly
computed from the installed-hash table) is not `Conflict` — in
particular its annotation is not `Conflict` either. -/
theorem c10_no_conflict_checked (fsE : String → Bool)
    (hash : String → String) (st : ProviderState) (repoUrl : String) :
    (∀ k, k ∈ (checkAllMatchingRepoSkills st).checkedSkills →
      k ∈ st.checkedSkills ∨
        ∃ s, s ∈ getAllMatchingRepoSkills st ∧
          s.matchStatus ≠ some SkillMatchStatus.Conflict ∧
          getSkillKey s = k) ∧
    (∀ k, k ∈ (checkAllSkillsInRepo fsE hash st repoUrl).checkedSkills →
      k ∈ st.checkedSkills ∨
        ∃ s, s ∈ (assocLookup st.repoSkillsIndex repoUrl).getD [] ∧
          effectiveMatchStatus st.installedSkillHashes fsE hash s
            ≠ SkillMatchStatus.Conflict ∧
          s.matchStatus ≠ some SkillMatchStatus.Conflict ∧
          getSkillKey s = k) := by
  constructor
  · intro k h
    rcases mem_checkAll_foldl
        (fun s => s.matchStatus = some SkillMatchStatus.Conflict) _ st k h
      with hin | ⟨s, hs, hc, hk⟩
    · exact Or.inl hin
    · exact Or.inr ⟨s, hs, hc, hk⟩
  · intro k h
    rcases mem_checkAll_foldl
        (fun s => effectiveMatchStatus st.installedSkillHashes fsE hash s
          = SkillMatchStatus.Conflict) _ st k h
      with hin | ⟨s, hs, hc, hk⟩
    · exact Or.inl hin
    · have hmem : s ∈ (assocLookup st.repoSkillsIndex repoUrl).getD [] := by
        by_cases hq : st.searchQuery ≠ ""
        · rw [if_pos hq] at hs
          rw [filterSkills] at hs
          by_cases hq0 : st.searchQuery = ""
          · exact absurd hq0 hq
          · rw [if_neg hq0] at hs
            exact (List.mem_filter.mp hs).1
        · rw [if_neg hq] at hs
          exact hs
      have hann : s.matchStatus ≠ some SkillMatchStatus.Conflict := by
        intro hc'
        exact hc (by rw [effectiveMatchStatus, hc']; rfl)
      exact Or.inr ⟨s, hmem, hc, hann, hk⟩

/-- Witness for C10 at a concrete one-repository index holding one
matched and one conflicting skill: after the bulk check, the matched
skill's key is present and provably stems from a non-conflicting
candidate. -/
theorem c10_no_conflict_checked_witness :
    "u::ok" ∈ (checkAllMatchingRepoSkills
      { checkedSkills := [], skillCache := [],
        repoSkillsIndex := [("u",
          [{ name := "ok", description := "", path := "p", repoUrl := "u",
             matchStatus := some SkillMatchStatus.Matched },
           { name := "bad", description := "", path := "q", repoUrl := "u",
             matchStatus := some SkillMatchStatus.Conflict }])],
        installedSkillHashes := [], searchQuery := "" }).checkedSkills ∧
    ("u::ok" ∈ ([] : List String) ∨
      ∃ s, s ∈ getAllMatchingRepoSkills
          { checkedSkills := [], skillCache := [],
            repoSkillsIndex := [("u",
              [{ name := "ok", description := "", path := "p", repoUrl := "u",
                 matchStatus := some SkillMatchStatus.Matched },
               { name := "bad", description := "", path := "q", repoUrl := "u",
                 matchStatus := some SkillMatchStatus.Conflict }])],
            installedSkillHashes := [], searchQuery := "" } ∧
        s.matchStatus ≠ some SkillMatchStatus.Conflict ∧
        getSkillKey s = "u::ok") :=
  ⟨by decide,
   (c10_no_conflict_checked (fun _ => false) (fun _ => "")
      { checkedSkills := [], skillCache := [],
        repoSkillsIndex := [("u",
          [{ name := "ok", description := "", path := "p", repoUrl := "u",
             matchStatus := some SkillMatchStatus.Matched },
           { name := "bad", description := "", path := "q", repoUrl := "u",
             matchStatus := some SkillMatchStatus.Conflict }])],
        installedSkillHashes := [], searchQuery := "" } "u").1
     "u::ok" (by decide)⟩

/-! ## Claim C4 — bounded-concurrency mapper preserves input order -/

/-- The worker-pool invariant holds initially. -/
theorem initMapRun_inv {α R : Type} (f : α → R) (items : List α)
    (conc : Nat) : MapInv f items conc (initMapRun R items conc) := by
  refine ⟨?_, ?_, ?_, ?_, ?_⟩
  · simp [initMapRun]
  · simp [initMapRun]
  · intro j hj _
    exact absurd hj (by simp [initMapRun])
  · intro i cur hi
    rw [initMapRun, List.getElem?_replicate] at hi
    split at hi <;> simp_all
  · intro i hi
    rw [initMapRun, List.getElem?_replicate] at hi
    split at hi <;> simp_all

/-- The worker-pool invariant is preserved by every scheduler step. -/
theorem stepMapRun_inv {α R : Type} (f : α → R) (items : List α)
    (conc : Nat) {s : MapRunState R} (hinv : MapInv f items conc s)
    (i : Nat) : MapInv f items conc (stepMapRun f items s i) := by
  rcases hw : s.workers[i]? with _ | w
  · simp only [stepMapRun, hw]
    exact hinv
  · have hilt : i < s.workers.length := by
      by_contra hge
      rw [List.getElem?_eq_none (by omega)] at hw
      cases hw
    cases w with
    | ready =>
      by_cases hend : items.length ≤ s.nextIndex
      · simp only [stepMapRun, hw, if_pos hend]
        refine ⟨hinv.resLen, by rw [List.length_set]; exact hinv.wkLen,
          ?_, ?_, ?_⟩
        · intro j hj hjlen
          rcases hinv.claimed j (by omega) hjlen with hwr | ⟨i', hi'⟩
          · exact Or.inl hwr
          · refine Or.inr ⟨i', ?_⟩
            have hne : i ≠ i' := by
              intro he
              subst he
              rw [hw] at hi'
              simp at hi'
            rw [List.getElem?_set_ne hne]
            exact hi'
        · intro i' cur hi'
          by_cases hii : i = i'
          · subst hii
            rw [List.getElem?_set_self hilt] at hi'
            simp at hi'
          · rw [List.getElem?_set_ne hii] at hi'
            obtain ⟨h1, h2⟩ := hinv.runBound i' cur hi'
            exact ⟨h1, by show cur < s.nextIndex + 1; omega⟩
        · intro i' _
          show items.length ≤ s.nextIndex + 1
          omega
      · simp only [stepMapRun, hw, if_neg hend]
        refine ⟨hinv.resLen, by rw [List.length_set]; exact hinv.wkLen,
          ?_, ?_, ?_⟩
        · intro j hj hjlen
          have hj2 : j < s.nextIndex + 1 := hj
          by_cases hjc : j = s.nextIndex
          · subst hjc
            exact Or.inr ⟨i, by rw [List.getElem?_set_self hilt]⟩
          · rcases hinv.claimed j (by omega) hjlen with hwr | ⟨i', hi'⟩
            · exact Or.inl hwr
            · refine Or.inr ⟨i', ?_⟩
              have hne : i ≠ i' := by
                intro he
                subst he
                rw [hw] at hi'
                simp at hi'
              rw [List.getElem?_set_ne hne]
              exact hi'
        · intro i' cur hi'
          by_cases hii : i = i'
          · subst hii
            rw [List.getElem?_set_self hilt] at hi'
            have hceq : s.nextIndex = cur := by simpa using hi'
            refine ⟨by omega, ?_⟩
            show cur < s.nextIndex + 1
            omega
          · rw [List.getElem?_set_ne hii] at hi'
            obtain ⟨h1, h2⟩ := hinv.runBound i' cur hi'
            exact ⟨h1, by show cur < s.nextIndex + 1; omega⟩
        · intro i' hi'
          by_cases hii : i = i'
          · subst hii
            rw [List.getElem?_set_self hilt] at hi'
            simp at hi'
          · rw [List.getElem?_set_ne hii] at hi'
            have := hinv.doneHigh i' hi'
            show items.length ≤ s.nextIndex + 1
            omega
    | running cur =>
      obtain ⟨hcl, hcn⟩ := hinv.runBound i cur hw
      have ha : items[cur]? = some items[cur] :=
        List.getElem?_eq_getElem hcl
      simp only [stepMapRun, hw, ha]
      refine ⟨by rw [List.length_set]; exact hinv.resLen,
        by rw [List.length_set]; exact hinv.wkLen, ?_, ?_, ?_⟩
      · intro j hj hjlen
        by_cases hjc : j = cur
        · subst hjc
          refine Or.inl ?_
          rw [writtenAt]
          rw [List.getElem?_set_self (by rw [hinv.resLen]; exact hcl), ha]
          rfl
        · rcases hinv.claimed j hj hjlen with hwr | ⟨i', hi'⟩
          · refine Or.inl ?_
            rw [writtenAt] at hwr ⊢
            rw [List.getElem?_set_ne (fun h => hjc h.symm)]
            exact hwr
          · by_cases hii : i = i'
            · subst hii
              rw [hw] at hi'
              have : cur = j := by simpa using hi'
              exact absurd this.symm hjc
            · refine Or.inr ⟨i', ?_⟩
              rw [List.getElem?_set_ne hii]
              exact hi'
      · intro i' cur' hi'
        by_cases hii : i = i'
        · subst hii
          rw [List.getElem?_set_self hilt] at hi'
          simp at hi'
        · rw [List.getElem?_set_ne hii] at hi'
          exact hinv.runBound i' cur' hi'
      · intro i' hi'
        by_cases hii : i = i'
        · subst hii
          rw [List.getElem?_set_self hilt] at hi'
          simp at hi'
        · rw [List.getElem?_set_ne hii] at hi'
          exact hinv.doneHigh i' hi'
    | done =>
      simp only [stepMapRun, hw]
      exact hinv

/-- The worker-pool invariant holds after any schedule. -/
theorem runMapRun_inv {α R : Type} (f : α → R) (items : List α)
    (conc : Nat) (sched : List Nat) :
    MapInv f items conc (runMapRun f items conc sched) := by
  rw [runMapRun]
  have h : ∀ s : MapRunState R, MapInv f items conc s →
      MapInv f items conc (sched.foldl (stepMapRun f items) s) := by
    induction sched with
    | nil => exact fun s hs => hs
    | cons a t ih =>
      intro s hs
      rw [List.foldl_cons]
      exact ih _ (stepMapRun_inv f items conc hs a)
  exact h _ (initMapRun_inv f items conc)

/-- The claim fails as stated for concurrency bound `0`: the pool starts
`min(0, 1) = 0` workers, `Promise.all([])` settles immediately, and the
returned array (here after the empty — and only possible — schedule) is
a single hole rather than the mapper's result for the lone input. -/
theorem c4_map_concurrency_counterexample :
    allWorkersDone (runMapRun (fun n : Nat => n + 1) [5] 0 []) = true ∧
    (runMapRun (fun n : Nat => n + 1) [5] 0 []).results = [none] ∧
    (runMapRun (fun n : Nat => n + 1) [5] 0 []).results[0]?
      ≠ some ((([5] : List Nat)[0]?).map (fun n : Nat => n + 1)) := by
  refine ⟨rfl, rfl, by decide⟩

/-- C4 (amended): for every input list, every concurrency bound of at
least 1, every (pure) mapper, and every worker schedule under which the
pool runs to completion, the result list has the input list's length and
its element at position `j` is the mapper's result for `items[j]`, for
all `j` — output order corresponds to input order regardless of
completion order. -/
theorem c4_map_concurrency_amended {α R : Type} (f : α → R)
    (items : List α) (conc : Nat) (sched : List Nat) (hconc : 1 ≤ conc)
    (hdone : allWorkersDone (runMapRun f items conc sched) = true) :
    (runMapRun f items conc sched).results.length = items.length ∧
    ∀ j, j < items.length →
      (runMapRun f items conc sched).results[j]?
        = some ((items[j]?).map f) := by
  have hinv := runMapRun_inv f items conc sched
  refine ⟨hinv.resLen, ?_⟩
  intro j hj
  have hwlen : 1 ≤ (runMapRun f items conc sched).workers.length := by
    rw [hinv.wkLen]
    omega
  obtain ⟨w, hw0⟩ : ∃ w,
      (runMapRun f items conc sched).workers[0]? = some w :=
    ⟨_, List.getElem?_eq_getElem hwlen⟩
  have hwdone : w = WorkerPhase.done := by
    have hmem := List.getElem?_mem hw0
    have := List.all_eq_true.mp hdone w hmem
    cases w with
    | done => rfl
    | ready => simp at this
    | running c => simp at this
  subst hwdone
  have hhigh := hinv.doneHigh 0 hw0
  rcases hinv.claimed j (by omega) hj with hwr | ⟨i', hi'⟩
  · exact hwr
  · exfalso
    have hmem := List.getElem?_mem hi'
    have := List.all_eq_true.mp hdone _ hmem
    simp at this

/-- Witness for C4 (amended): a fully interleaved two-worker schedule
over three items completes and leaves the middle slot holding the
mapper's result for the middle input. -/
theorem c4_map_concurrency_amended_witness :
    allWorkersDone (runMapRun (fun n : Nat => n + 1) [10, 20, 30] 2
      [0, 1, 0, 1, 0, 1, 0, 0]) = true ∧
    (runMapRun (fun n : Nat => n + 1) [10, 20, 30] 2
      [0, 1, 0, 1, 0, 1, 0, 0]).results[1]? = some (some 21) :=
  ⟨by decide,
   (c4_map_concurrency_amended (fun n : Nat => n + 1) [10, 20, 30] 2
      [0, 1, 0, 1, 0, 1, 0, 0] (by decide) (by decide)).2 1 (by decide)⟩

end OpenSkills
